import Mathlib

/-!
Verification of the NoteSpace document-processing pipeline
(`backend/text_extractor.py`, `backend/llm_service.py`,
`backend/processing_pipeline.py`) against its natural-language
specification.

Python strings are embedded as `List Char` (`Str`).  Pure Python
functions become Lean functions; the `while` loop of `chunk_text`
becomes a fuel-indexed recursion returning `Option` (with `none`
standing for "the loop has not terminated within the given fuel",
so `∀ fuel, … = none` exhibits non-termination); the filesystem,
the PDF/DOCX/TXT format libraries and the OpenAI completion call
are abstracted as explicit oracle parameters, since they are
external to the repository.
-/

/-- Python strings, embedded as lists of characters. -/
abbrev Str := List Char

/-- Python truthiness of an optional string: `None` and `""` are falsy. -/
def optTruthy : Option Str → Bool
  | none => false
  | some s => !s.isEmpty

/-- The character class stripped by Python's `str.strip()` (restricted to
the ASCII whitespace characters `' '`, `'\t'`, `'\n'`, `'\r'`, `'\x0b'`,
`'\x0c'`; the texts in this development contain no other Unicode
whitespace). -/
def isPyWs (c : Char) : Bool :=
  c = ' ' || c = '\t' || c = '\n' || c = '\r' || c = Char.ofNat 11 || c = Char.ofNat 12

/-- Python's `str.strip()`: drop leading and trailing whitespace. -/
def pyStrip (l : Str) : Str :=
  ((l.dropWhile isPyWs).reverse.dropWhile isPyWs).reverse

/-- Python's `sep.join(parts)`. -/
def joinSep (sep : Str) : List Str → Str
  | [] => []
  | [l] => l
  | l :: l' :: ls => l ++ sep ++ joinSep sep (l' :: ls)

/-- Helper for `splitNl`: prepend a character to the first line. -/
def consHead (c : Char) : List Str → List Str
  | [] => [[c]]
  | l :: ls => (c :: l) :: ls

/-- Python's `text.split('\n')` (note `''.split('\n') = ['']`). -/
def splitNl : Str → List Str
  | [] => [[]]
  | c :: rest => if c = '\n' then [] :: splitNl rest else consHead c (splitNl rest)

/-- Embedding of `re.sub(r'\n{3,}', '\n\n', text)` from `clean_text`
(`text_extractor.py` line 105): every maximal run of three or more
newlines is replaced by exactly two; shorter runs are untouched. -/
def collapseNewlines : Str → Str
  | [] => []
  | a :: rest =>
    if a = '\n' then
      match rest with
      | b :: c :: _ =>
        if b = '\n' ∧ c = '\n' then collapseNewlines rest
        else a :: collapseNewlines rest
      | _ => a :: collapseNewlines rest
    else a :: collapseNewlines rest

/-- Embedding of `re.sub(r' {2,}', ' ', text)` from `clean_text`
(`text_extractor.py` line 107): every maximal run of two or more
spaces is replaced by a single space. -/
def collapseSpaces : Str → Str
  | [] => []
  | a :: rest =>
    if a = ' ' then
      match rest with
      | b :: _ =>
        if b = ' ' then collapseSpaces rest
        else a :: collapseSpaces rest
      | [] => [' ']
    else a :: collapseSpaces rest

/-- Embedding of `clean_text` from `backend/text_extractor.py` (lines 89-113):
collapse newline runs, collapse space runs, split into lines, strip
each line, drop empty lines, re-join with single newlines; empty
input returns the empty string. -/
def clean_text (text : Str) : Str :=
  if text.isEmpty then []
  else
    let t1 := collapseNewlines text
    let t2 := collapseSpaces t1
    let lines := splitNl t2
    let stripped := lines.map pyStrip
    let nonempty := stripped.filter (fun l => !l.isEmpty)
    joinSep ['\n'] nonempty

/-- Embedding of `count_tokens` from `backend/llm_service.py` (lines 179-199),
fallback branch: `len(text) // CHARACTERS_PER_TOKEN_ESTIMATE` with the
ratio constant 4 (`backend/constants.py` line 21). -/
def count_tokens (text : Str) : Nat :=
  text.length / 4

/-- Clamp one endpoint of a Python slice `l[a:b]` into `[0, n]`,
interpreting negative indices from the end as Python does. -/
def pyIdxClamp (n i : Int) : Int :=
  if i < 0 then max (n + i) 0 else min i n

/-- Python's slice `l[a:b]` (step 1). -/
def pySlice {α : Type} (l : List α) (a b : Int) : List α :=
  let n : Int := l.length
  (l.take (pyIdxClamp n b).toNat).drop (pyIdxClamp n a).toNat

/-- The sliding-window `while` loop shared by both branches of
`chunk_text` (`backend/llm_service.py` lines 84-93 over tokens and
lines 108-114 over characters):

    while chunk_start_index < len(seq):
        chunk_end_index = min(chunk_start_index + size, len(seq))
        chunks.append(seq[chunk_start_index:chunk_end_index])
        chunk_start_index = chunk_end_index - overlap

indexed by fuel; `none` means the loop has not finished within the
given number of iterations. -/
def chunkLoop {α : Type} (seq : List α) (size ov : Int) : Nat → Int → Option (List (List α))
  | 0, start => if start < (seq.length : Int) then none else some []
  | fuel + 1, start =>
    if start < (seq.length : Int) then
      (chunkLoop seq size ov fuel (min (start + size) (seq.length : Int) - ov)).map
        (fun rest => pySlice seq start (min (start + size) (seq.length : Int)) :: rest)
    else some []

/-- Embedding of `chunk_text` from `backend/llm_service.py` (lines 49-116),
character-fallback branch (the `tiktoken` branch applies the identical
loop `chunkLoop` to the external tokenizer's token list and is not
separately embedded): empty text returns `[]`; a text of at most
`max_chunk_size * 4` characters (`CHARACTERS_PER_TOKEN_ESTIMATE = 4`)
is returned whole; otherwise the sliding-window loop runs with window
`max_chunk_size * 4` and overlap `overlap * 4` characters. -/
def chunk_text (text : Str) (max_chunk_size overlap : Int) (fuel : Nat) : Option (List Str) :=
  if text.isEmpty then some []
  else
    let characters_per_chunk := max_chunk_size * 4
    let characters_overlap := overlap * 4
    if (text.length : Int) ≤ characters_per_chunk then some [text]
    else chunkLoop text characters_per_chunk characters_overlap fuel 0

/-- Index of the last occurrence of a character, if any. -/
def lastIndexOf (c : Char) : Str → Option Nat
  | [] => none
  | a :: rest =>
    match lastIndexOf c rest with
    | some i => some (i + 1)
    | none => if a = c then some 0 else none

/-- The extension part of `os.path.splitext(p)` (posix rules): the
suffix from the last `'.'`, provided that dot lies after the last
`'/'` and at least one character strictly between them is not a dot
(so dotfiles such as `".bashrc"` have no extension). -/
def splitextExt (p : Str) : Str :=
  match lastIndexOf '.' p with
  | none => []
  | some d =>
    let s : Int := match lastIndexOf '/' p with
      | none => -1
      | some i => i
    if s < (d : Int) then
      if (List.range p.length).any
          (fun k => decide (s < (k : Int)) && decide ((k : Int) < (d : Int)) &&
            decide (p.get? k ≠ some '.')) then
        p.drop d
      else []
    else []

/-- Embedding of `os.path.splitext(file_path)[1].lower()` (`text_extractor.py` line 24);
`.lower()` maps ASCII letters, which is all the extensions compared against. -/
def splitextExtLower (p : Str) : Str :=
  (splitextExt p).map Char.toLower

/-- Outcome of a format library call (PyPDF2 page texts, or python-docx
paragraph texts): either the list of extracted strings or a raised
exception's message. -/
inductive LibOutcome where
  | ok (parts : List Str)
  | failure (msg : Str)

/-- Outcome of reading a file as UTF-8 text (`extract_text_from_txt`):
success, a `UnicodeDecodeError` followed by a Latin-1 retry that itself
succeeds or raises, or some other exception. -/
inductive TxtOutcome where
  | ok (s : Str)
  | decodeErr (latin1 : Except Str Str)
  | err (msg : Str)

/-- The filesystem and the external format libraries, abstracted: what
`os.path.exists` answers, and what PyPDF2 / python-docx / `open().read()`
produce at each path. -/
structure FileSys where
  exists? : Str → Bool
  pdf : Str → LibOutcome
  docx : Str → LibOutcome
  txtUtf8 : Str → TxtOutcome

/-- Embedding of `extract_text_from_pdf` (`text_extractor.py` lines 39-53): join the
truthy page texts with blank lines, or report `"Error reading PDF: …"`. -/
def extract_text_from_pdf (fs : FileSys) (p : Str) : Option Str × Option Str :=
  match fs.pdf p with
  | .ok pages => (some (joinSep "\n\n".data (pages.filter (fun t => !t.isEmpty))), none)
  | .failure m => (none, some ("Error reading PDF: ".data ++ m))

/-- Embedding of `extract_text_from_docx` (`text_extractor.py` lines 56-68): join the
paragraphs whose stripped text is truthy (keeping the unstripped text),
or report `"Error reading DOCX: …"`. -/
def extract_text_from_docx (fs : FileSys) (p : Str) : Option Str × Option Str :=
  match fs.docx p with
  | .ok paras => (some (joinSep "\n\n".data (paras.filter (fun t => !(pyStrip t).isEmpty))), none)
  | .failure m => (none, some ("Error reading DOCX: ".data ++ m))

/-- Embedding of `extract_text_from_txt` (`text_extractor.py` lines 71-86): UTF-8 read,
falling back to Latin-1 on a decode error; any other failure reports
`"Error reading TXT file: …"`. -/
def extract_text_from_txt (fs : FileSys) (p : Str) : Option Str × Option Str :=
  match fs.txtUtf8 p with
  | .ok s => (some s, none)
  | .decodeErr (.ok s) => (some s, none)
  | .decodeErr (.error m) => (none, some ("Error reading TXT file: ".data ++ m))
  | .err m => (none, some ("Error reading TXT file: ".data ++ m))

/-- Embedding of `extract_text_from_file` (`text_extractor.py` lines 10-36): check
existence first, then dispatch on the lower-cased extension; unsupported
extensions and missing files yield `(None, error)` without raising. -/
def extract_text_from_file (fs : FileSys) (p : Str) : Option Str × Option Str :=
  if fs.exists? p = false then (none, some ("File not found: ".data ++ p))
  else
    let ext := splitextExtLower p
    if ext = ".pdf".data then extract_text_from_pdf fs p
    else if ext = ".docx".data then extract_text_from_docx fs p
    else if ext = ".txt".data then extract_text_from_txt fs p
    else (none, some ("Unsupported file type: ".data ++ ext))

/-- A `Note` row as used by the pipeline: its stored file URL and the
original filename shown to users (`models.py`). -/
structure Note where
  file_url : Str
  original_filename : Str
deriving DecidableEq

/-- The mutable fields of a `MetaDocument` row written by
`process_topic_files` (`models.py` lines 211-221).  The
`source_filenames` column stores the JSON encoding of the list held
here; `synthesized_content` is kept as an `Option` because the Python
code can assign the API's `None` content to it (the database-level
NOT NULL check is outside this model). -/
structure Job where
  synthesized_content : Option Str
  source_filenames : List Str
  chunk_count : Nat
  token_count : Nat
  processing_status : Str
  error_message : Option Str
deriving DecidableEq

/-- A fresh `MetaDocument` as created at `processing_pipeline.py`
lines 129-134: status `processing`, empty content, empty source list. -/
def newJob : Job :=
  { synthesized_content := some []
    source_filenames := []
    chunk_count := 0
    token_count := 0
    processing_status := "processing".data
    error_message := none }

/-- The outcome of the one OpenAI completion request made by
`synthesize_text_with_llm`: the response content (which the API may
leave `None` or empty) with its token usage, or a raised exception's
message. -/
inductive ApiOutcome where
  | ok (content : Option Str) (tokens : Nat)
  | err (msg : Str)

/-- Embedding of `synthesize_text_with_llm` (`llm_service.py` lines 119-176) with the
external API call abstracted: empty chunk list short-circuits with
`"No text chunks provided"`; an API exception becomes
`"Error calling LLM: …"`; otherwise the response content is returned
with no error. -/
def synthesize_text_with_llm (api : ApiOutcome) (chunks : List Str) :
    Option Str × Option Str × Nat :=
  if chunks.isEmpty then (none, some "No text chunks provided".data, 0)
  else
    match api with
    | .ok content tokens => (content, none, tokens)
    | .err m => (none, some ("Error calling LLM: ".data ++ m), 0)

/-- Embedding of `_extract_texts_from_notes` (`processing_pipeline.py` lines 61-90)
with `extract_text_from_file` at the note's resolved path abstracted to
the oracle `extractFile` (path resolution via `_get_upload_folder_path`
and `_extract_filename_from_url` touches only the filesystem): skip a
note on a truthy extraction error or falsy extracted text, clean the
rest, and keep `(cleaned text, original filename)` when the cleaned
text is truthy, preserving order. -/
def extract_texts_from_notes (extractFile : Note → Option Str × Option Str) :
    List Note → List Str × List Str
  | [] => ([], [])
  | note :: rest =>
    let r := extractFile note
    if optTruthy r.2 then extract_texts_from_notes extractFile rest
    else
      match r.1 with
      | none => extract_texts_from_notes extractFile rest
      | some txt =>
        if txt.isEmpty then extract_texts_from_notes extractFile rest
        else
          let c := clean_text txt
          if c.isEmpty then extract_texts_from_notes extractFile rest
          else
            let tn := extract_texts_from_notes extractFile rest
            (c :: tn.1, note.original_filename :: tn.2)

/-- The dictionary returned by `process_topic_files`: its `status` and
`message` keys (the success dictionary's extra id/count keys are not
needed by any claim). -/
structure PipeResult where
  status : Str
  message : Str
deriving DecidableEq

/-- Embedding of `process_topic_files` (`processing_pipeline.py` lines 93-199).
Inputs: the topic looked up by id (`none` when absent), its notes, the
already-`processing` job found by the reuse query (`none` when a fresh
job is created and committed), the extraction oracle, the API outcome,
and fuel for `chunk_text`'s loop.  Returns the result dictionary
(`none` when `chunk_text` never terminates, in which case nothing past
that point runs) together with every `MetaDocument` state committed to
the database, in commit order. -/
def process_topic_files (topic : Option Str) (topic_id : Nat) (notes : List Note)
    (existingJob : Option Job) (extractFile : Note → Option Str × Option Str)
    (api : ApiOutcome) (fuel : Nat) : Option PipeResult × List Job :=
  match topic with
  | none =>
    (some ⟨"error".data, "Topic ".data ++ (Nat.repr topic_id).data ++ " not found".data⟩, [])
  | some _ =>
    if notes.isEmpty then
      (some ⟨"error".data, "No files found for this topic".data⟩, [])
    else
      let job0 := existingJob.getD newJob
      let persisted0 : List Job := if existingJob.isNone then [job0] else []
      let tn := extract_texts_from_notes extractFile notes
      if tn.1.isEmpty then
        let j := { job0 with
          processing_status := "failed".data
          error_message := some "No text could be extracted from any files".data }
        (some ⟨"error".data, "No text could be extracted from any files".data⟩,
          persisted0 ++ [j])
      else
        let combined := joinSep "\n\n---\n\n".data
          (List.zipWith (fun n t => "Source: ".data ++ n ++ "\n\n".data ++ t) tn.2 tn.1)
        match chunk_text combined 8000 200 fuel with
        | none => (none, persisted0)
        | some text_chunks =>
          let s := synthesize_text_with_llm api text_chunks
          if optTruthy s.2.1 then
            let j := { job0 with
              processing_status := "failed".data
              error_message := s.2.1 }
            (some ⟨"error".data, (s.2.1).getD []⟩, persisted0 ++ [j])
          else
            let j := { job0 with
              synthesized_content := s.1
              source_filenames := tn.2
              chunk_count := text_chunks.length
              token_count := s.2.2
              processing_status := "completed".data
              error_message := none }
            (some ⟨"success".data, "Meta document created successfully".data⟩,
              persisted0 ++ [j])

/-- Does a job hold non-empty synthesized content? -/
def contentNonempty (j : Job) : Bool :=
  match j.synthesized_content with
  | some s => !s.isEmpty
  | none => false

/-- The record invariant of claim C4: synthesized content is non-empty
exactly in status `completed`, and the error message is non-null exactly
in status `failed`. -/
def jobInvB (j : Job) : Bool :=
  (contentNonempty j == (j.processing_status == "completed".data)) &&
  (j.error_message.isSome == (j.processing_status == "failed".data))

/-- No two adjacent occurrences of the character `c` in `l`. -/
def NoAdj (c : Char) (l : Str) : Prop :=
  l.Chain' (fun a b => ¬(a = c ∧ b = c))

/-- The list of lines `clean_text` joins for a non-empty input: split the
whitespace-collapsed text on newlines, strip each line, drop the empty
ones. -/
def cleanLines (text : Str) : List Str :=
  ((splitNl (collapseSpaces (collapseNewlines text))).map pyStrip).filter
    (fun l => !l.isEmpty)

/-- C10: `chunk_text` on the empty string returns the empty list of
chunks, for every configuration (`llm_service.py` lines 68-69), not a
one-element list holding the empty string. -/
theorem chunk_text_empty_returns_no_chunks (max_chunk_size overlap : Int) (fuel : Nat) :
    chunk_text [] max_chunk_size overlap fuel = some [] ∧
    chunk_text [] max_chunk_size overlap fuel ≠ some [([] : Str)] := by
  exact ⟨rfl, by simp [chunk_text]⟩

/-- Counterexample to C8 as stated: on `"a\n\n\n\nb   c"` the code
returns `"a\nb c"` (the blank line left by newline collapsing is removed
by the empty-line filter), not the claimed `"a\n\nb c"`. -/
theorem clean_text_example_ne_claimed :
    clean_text "a\n\n\n\nb   c".data ≠ "a\n\nb c".data := by decide

/-- C8 (amended): `clean_text "a\n\n\n\nb   c" = "a\nb c"` and
`clean_text "" = ""`. -/
theorem clean_text_concrete_examples :
    clean_text "a\n\n\n\nb   c".data = "a\nb c".data ∧ clean_text "".data = "".data := by
  exact ⟨by decide, rfl⟩

/-- Counterexample to C2 as stated: the empty string has token count
`0 ≤ max_chunk_size` yet yields `[]` rather than `[""]`; and a 6-character
text has fallback estimate `6 // 4 = 1 ≤ 1` yet is split into two chunks
because the code's threshold is `len(text) ≤ max_chunk_size * 4`. -/
theorem chunk_text_small_counterexample :
    (chunk_text "".data 8000 200 0 ≠ some ["".data]) ∧
    (count_tokens "abcdef".data ≤ 1 ∧
      chunk_text "abcdef".data 1 0 2 ≠ some ["abcdef".data]) := by decide

/-- C2 (amended): every non-empty text of at most `max_chunk_size * 4`
characters (the code's fallback threshold) is returned unchanged as the
single chunk. -/
theorem chunk_text_small_returns_whole (text : Str) (max_chunk_size overlap : Int)
    (fuel : Nat) (hne : text ≠ []) (hlen : (text.length : Int) ≤ max_chunk_size * 4) :
    chunk_text text max_chunk_size overlap fuel = some [text] := by
  cases text with
  | nil => exact absurd rfl hne
  | cons a t =>
    simp [chunk_text, hlen]
    intro h
    exfalso
    simp only [List.length_cons] at hlen
    push_cast at hlen
    omega

/-- Witness for `chunk_text_small_returns_whole` at `"hi"`, size 1. -/
theorem chunk_text_small_returns_whole_witness :
    "hi".data ≠ ([] : Str) ∧ (("hi".data : Str).length : Int) ≤ 1 * 4 ∧
    chunk_text "hi".data 1 0 0 = some ["hi".data] := by
  exact ⟨by decide, by decide,
    chunk_text_small_returns_whole "hi".data 1 0 0 (by decide) (by decide)⟩

/-- Once the window start reaches 6 on a 10-character text with window 8
and character overlap 4, every iteration recomputes end = 10 and start =
10 - 4 = 6: the loop never exits, whatever the fuel. -/
theorem chunkLoop_stuck_at_six (fuel : Nat) :
    chunkLoop "abcdefghij".data 8 4 fuel 6 = none := by
  induction fuel with
  | zero => decide
  | succ n ih =>
    show (if (6 : Int) < (10 : Int) then
        (chunkLoop "abcdefghij".data 8 4 n (min ((6 : Int) + 8) 10 - 4)).map _
      else some []) = none
    rw [if_pos (by norm_num)]
    norm_num [ih]

/-- C1 is false on the code: with `max_chunk_size = 2` and `overlap = 1`
(a configuration with `0 ≤ overlap < max_chunk_size`), the fallback
sliding-window loop on a 10-character text never terminates: the start
index evolves 0 → 4 → 6 → 6 → 6 → …, so no fuel suffices. -/
theorem chunk_text_valid_overlap_diverges (fuel : Nat) :
    chunk_text "abcdefghij".data 2 1 fuel = none := by
  match fuel with
  | 0 => decide
  | 1 => decide
  | (n + 2) =>
    show (chunk_text "abcdefghij".data 2 1 (n + 2)) = none
    have h6 := chunkLoop_stuck_at_six n
    simp only [chunk_text, chunkLoop]
    norm_num [h6]

/-- Slicing with the full range returns the list itself. -/
theorem pySlice_zero_length {α : Type} (l : List α) :
    pySlice l 0 (l.length : Int) = l := by
  have h0 : pyIdxClamp (l.length : Int) 0 = 0 := by
    simp [pyIdxClamp]
  have hn : pyIdxClamp (l.length : Int) (l.length : Int) = (l.length : Int) := by
    simp [pyIdxClamp]
  simp [pySlice, h0, hn]

/-- Whenever the sliding-window loop terminates from a non-negative
start with `0 ≤ overlap < window`, every remaining index lands inside
one of the produced slices, whose bounds stay inside the sequence. -/
theorem chunkLoop_cover {α : Type} (seq : List α) (size ov : Int)
    (hov0 : 0 ≤ ov) (hov : ov < size) :
    ∀ (fuel : Nat) (start : Int) (res : List (List α)),
      0 ≤ start →
      chunkLoop seq size ov fuel start = some res →
      ∀ i : Int, start ≤ i → i < (seq.length : Int) →
        ∃ a b : Int, 0 ≤ a ∧ a ≤ i ∧ i < b ∧ b ≤ (seq.length : Int) ∧
          pySlice seq a b ∈ res := by
  intro fuel
  induction fuel with
  | zero =>
    intro start res hs hres i hi hilen
    by_cases h : start < (seq.length : Int)
    · simp [chunkLoop, h] at hres
    · exact absurd (lt_of_le_of_lt hi hilen) (by omega)
  | succ n ih =>
    intro start res hs hres i hi hilen
    by_cases h : start < (seq.length : Int)
    · simp only [chunkLoop, if_pos h] at hres
      cases hrec : chunkLoop seq size ov n (min (start + size) (seq.length : Int) - ov) with
      | none => rw [hrec] at hres; simp at hres
      | some res' =>
        rw [hrec] at hres
        simp only [Option.map_some', Option.some.injEq] at hres
        by_cases hie : i < min (start + size) (seq.length : Int)
        · refine ⟨start, min (start + size) (seq.length : Int), hs, hi, hie,
            min_le_right _ _, ?_⟩
          rw [← hres]
          exact List.mem_cons_self _ _
        · push_neg at hie
          have he : min (start + size) (seq.length : Int) = start + size := by omega
          rw [he] at hrec hie
          obtain ⟨a, b, h1, h2, h3, h4, h5⟩ :=
            ih (start + size - ov) res' (by omega) hrec i (by omega) hilen
          refine ⟨a, b, h1, h2, h3, h4, ?_⟩
          rw [← hres]
          exact List.mem_cons_of_mem _ h5
    · exact absurd (lt_of_le_of_lt hi hilen) (by omega)

/-- C3: whenever `chunk_text` returns a list of chunks under a
configuration with `0 ≤ overlap < max_chunk_size`, every character index
of the input lies inside at least one returned chunk — each chunk is a
slice of the input and the slice intervals leave no index uncovered.
(For `overlap > 0` and texts longer than the window the call never
returns at all — the divergence recorded at C1 — so this speaks of every
terminating invocation.) -/
theorem chunk_text_cover (text : Str) (max_chunk_size overlap : Int) (fuel : Nat)
    (res : List Str) (hov0 : 0 ≤ overlap) (hov : overlap < max_chunk_size)
    (hres : chunk_text text max_chunk_size overlap fuel = some res) :
    ∀ i : Nat, i < text.length →
      ∃ a b : Int, 0 ≤ a ∧ a ≤ (i : Int) ∧ (i : Int) < b ∧ b ≤ (text.length : Int) ∧
        pySlice text a b ∈ res := by
  intro i hi
  cases text with
  | nil => exact absurd hi (by simp)
  | cons c t =>
    by_cases hlen : ((c :: t).length : Int) ≤ max_chunk_size * 4
    · have : res = [c :: t] := by
        have := chunk_text_small_returns_whole (c :: t) max_chunk_size overlap fuel
          (by simp) hlen
        rw [this] at hres
        exact (Option.some.injEq _ _ ▸ hres.symm)
      subst this
      refine ⟨0, ((c :: t).length : Int), le_refl _, by positivity, by exact_mod_cast hi,
        le_refl _, ?_⟩
      rw [pySlice_zero_length]
      exact List.mem_cons_self _ _
    · have hlen' : ¬ ((t.length : Int) + 1 ≤ max_chunk_size * 4) := by
        push_cast at hlen
        exact hlen
      have hloop : chunkLoop (c :: t) (max_chunk_size * 4) (overlap * 4) fuel 0 = some res := by
        simpa [chunk_text, hlen'] using hres
      have hov0' : 0 ≤ overlap * 4 := by
        have : (0 : Int) ≤ 4 := by norm_num
        exact mul_nonneg hov0 this
      have hov' : overlap * 4 < max_chunk_size * 4 :=
        mul_lt_mul_of_pos_right hov (by norm_num)
      exact chunkLoop_cover (c :: t) (max_chunk_size * 4) (overlap * 4) hov0' hov'
        fuel 0 res (le_refl 0) hloop (i : Int) (by positivity) (by exact_mod_cast hi)

/-- Witness for `chunk_text_cover`: text `"abcdefghij"`, window 2 tokens
(8 characters), overlap 0, index 9 — covered by one of the two chunks. -/
theorem chunk_text_cover_witness :
    ∃ a b : Int, 0 ≤ a ∧ a ≤ ((9 : Nat) : Int) ∧ ((9 : Nat) : Int) < b ∧
      b ≤ (("abcdefghij".data : Str).length : Int) ∧
      pySlice "abcdefghij".data a b ∈ ["abcdefgh".data, "ij".data] := by
  exact chunk_text_cover "abcdefghij".data 2 0 3 ["abcdefgh".data, "ij".data]
    (by decide) (by decide) (by decide) 9 (by decide)

/-- The synthesizer never reports an empty error string: both of its
error messages are non-empty literals. -/
theorem synth_error_ne_nil (api : ApiOutcome) (chunks : List Str)
    (c : Option Str) (e : Str) (tk : Nat)
    (h : synthesize_text_with_llm api chunks = (c, some e, tk)) : e ≠ [] := by
  unfold synthesize_text_with_llm at h
  by_cases hc : chunks.isEmpty
  · rw [if_pos hc] at h
    have h2 : some "No text chunks provided".data = some e :=
      congrArg (fun p => p.2.1) h
    rw [← Option.some.inj h2]
    decide
  · rw [if_neg hc] at h
    cases api with
    | ok content tokens =>
      have h2 : (none : Option Str) = some e := congrArg (fun p => p.2.1) h
      exact absurd h2 (by simp)
    | err m =>
      have h2 : some ("Error calling LLM: ".data ++ m) = some e :=
        congrArg (fun p => p.2.1) h
      rw [← Option.some.inj h2]
      intro hnil
      rw [List.append_eq_nil] at hnil
      exact absurd hnil.1 (by decide)

/-- Applying `chunk_text` to a non-empty text never returns an empty chunk list:
either the whole text is the single chunk, or the loop body runs at
least once. -/
theorem chunk_text_some_ne_nil (text : Str) (max_chunk_size overlap : Int)
    (fuel : Nat) (res : List Str) (hne : text ≠ [])
    (hres : chunk_text text max_chunk_size overlap fuel = some res) : res ≠ [] := by
  have hie : text.isEmpty = false := by
    cases text with
    | nil => exact absurd rfl hne
    | cons _ _ => rfl
  have hlen : (0 : Int) < (text.length : Int) := by
    cases text with
    | nil => exact absurd rfl hne
    | cons a t => exact_mod_cast Nat.succ_pos t.length
  unfold chunk_text at hres
  rw [hie] at hres
  simp only [Bool.false_eq_true, if_false] at hres
  by_cases hfit : (text.length : Int) ≤ max_chunk_size * 4
  · rw [if_pos hfit] at hres
    rw [← Option.some.inj hres]
    simp
  · rw [if_neg hfit] at hres
    cases fuel with
    | zero =>
      rw [chunkLoop, if_pos hlen] at hres
      exact absurd hres (by simp)
    | succ n =>
      rw [chunkLoop, if_pos hlen] at hres
      cases hrec : chunkLoop text (max_chunk_size * 4) (overlap * 4) n
          (min (0 + max_chunk_size * 4) (text.length : Int) - overlap * 4) with
      | none => rw [hrec] at hres; exact absurd hres (by simp)
      | some res' =>
        rw [hrec] at hres
        simp only [Option.map_some', Option.some.injEq] at hres
        rw [← hres]
        simp

/-- C5: when the synthesizer reports an error (a non-null message), the
job is committed with status `failed`, its `error_message` equal to the
synthesizer's error string, its `synthesized_content` untouched, and the
call returns an error result carrying the same message
(`processing_pipeline.py` lines 168-172). -/
theorem process_synth_error_persists_failed (name : Str) (topic_id : Nat)
    (notes : List Note) (existingJob : Option Job)
    (extractFile : Note → Option Str × Option Str) (api : ApiOutcome) (fuel : Nat)
    (chunks : List Str) (c : Option Str) (e : Str) (tk : Nat)
    (hnotes : notes ≠ [])
    (htexts : (extract_texts_from_notes extractFile notes).1 ≠ [])
    (hchunk : chunk_text (joinSep "\n\n---\n\n".data
        (List.zipWith (fun n t => "Source: ".data ++ n ++ "\n\n".data ++ t)
          (extract_texts_from_notes extractFile notes).2
          (extract_texts_from_notes extractFile notes).1)) 8000 200 fuel = some chunks)
    (hsynth : synthesize_text_with_llm api chunks = (c, some e, tk)) :
    (process_topic_files (some name) topic_id notes existingJob extractFile api fuel).1 =
      some ⟨"error".data, e⟩ ∧
    ((process_topic_files (some name) topic_id notes existingJob extractFile api fuel).2).getLast?
      = some { existingJob.getD newJob with
          processing_status := "failed".data, error_message := some e } := by
  have he : e ≠ [] := synth_error_ne_nil api chunks c e tk hsynth
  have hne : notes.isEmpty = false := by
    cases notes with
    | nil => exact absurd rfl hnotes
    | cons _ _ => rfl
  have htx : (extract_texts_from_notes extractFile notes).1.isEmpty = false := by
    cases hcase : (extract_texts_from_notes extractFile notes).1 with
    | nil => exact absurd hcase htexts
    | cons _ _ => rfl
  have hee : e.isEmpty = false := by
    cases e with
    | nil => exact absurd rfl he
    | cons _ _ => rfl
  simp only [process_topic_files, hne, Bool.false_eq_true, if_false, htx, hchunk,
    hsynth, optTruthy, hee, Bool.not_false, if_true, Option.getD_some]
  exact ⟨trivial, by rw [List.getLast?_concat]⟩

/-- Witness for `process_synth_error_persists_failed`: one `.txt` note
extracting `"hello"`, API raising `"boom"`. -/
theorem process_synth_error_persists_failed_witness :
    (process_topic_files (some "T".data) 1 [⟨"u".data, "a.txt".data⟩] none
      (fun _ => (some "hello".data, none)) (.err "boom".data) 0).1 =
      some ⟨"error".data, "Error calling LLM: boom".data⟩ ∧
    ((process_topic_files (some "T".data) 1 [⟨"u".data, "a.txt".data⟩] none
      (fun _ => (some "hello".data, none)) (.err "boom".data) 0).2).getLast? =
      some { (none : Option Job).getD newJob with
        processing_status := "failed".data,
        error_message := some "Error calling LLM: boom".data } := by
  exact process_synth_error_persists_failed "T".data 1 [⟨"u".data, "a.txt".data⟩] none
    (fun _ => (some "hello".data, none)) (.err "boom".data) 0
    ["Source: a.txt\n\nhello".data] none "Error calling LLM: boom".data 0
    (by decide) (by decide) (by decide) (by decide)

/-- A note that reports a truthy extraction error, or whose extracted
text (when present) cleans to the empty string, contributes nothing to
`_extract_texts_from_notes`: the loop skips it and continues with the
remaining notes (`processing_pipeline.py` lines 80-88). -/
theorem extract_texts_skip (extractFile : Note → Option Str × Option Str)
    (n1 : Note) (rest : List Note)
    (h : optTruthy (extractFile n1).2 = true ∨
      ∀ t1, (extractFile n1).1 = some t1 → clean_text t1 = []) :
    extract_texts_from_notes extractFile (n1 :: rest) =
      extract_texts_from_notes extractFile rest := by
  by_cases herr : optTruthy (extractFile n1).2 = true
  · simp only [extract_texts_from_notes, herr, if_true]
  · have hcl : ∀ t1, (extractFile n1).1 = some t1 → clean_text t1 = [] := by
      rcases h with h | h
      · exact absurd h herr
      · exact h
    simp only [extract_texts_from_notes, herr, if_false]
    cases ht : (extractFile n1).1 with
    | none => simp [ht]
    | some t1 =>
      have hct := hcl t1 ht
      by_cases hte : t1.isEmpty = true
      · simp [ht, hte]
      · have hcte : (clean_text t1).isEmpty = true := by
          rw [hct]
          rfl
        simp [ht, hte, hcte]

/-- C6: with two source notes where the first fails extraction (truthy
error) or yields text whose cleaned form is empty, while the second
yields text whose cleaned form is non-empty, the job still completes
(given the synthesis call succeeds and the chunk loop terminates) using
only the second file's text, and the persisted `source_filenames` list
holds exactly the second file's original filename
(`processing_pipeline.py` lines 75-90 and 174-190). -/
theorem process_partial_extraction_completes (name : Str) (topic_id : Nat)
    (n1 n2 : Note) (existingJob : Option Job)
    (extractFile : Note → Option Str × Option Str)
    (capi : Option Str) (tk : Nat) (fuel : Nat) (chunks : List Str) (t2 : Str)
    (h1 : optTruthy (extractFile n1).2 = true ∨
      ∀ t1, (extractFile n1).1 = some t1 → clean_text t1 = [])
    (h2 : extractFile n2 = (some t2, none))
    (ht2 : clean_text t2 ≠ [])
    (hchunk : chunk_text ("Source: ".data ++ n2.original_filename ++ "\n\n".data ++
        clean_text t2) 8000 200 fuel = some chunks) :
    (process_topic_files (some name) topic_id [n1, n2] existingJob extractFile
        (.ok capi tk) fuel).1 =
      some ⟨"success".data, "Meta document created successfully".data⟩ ∧
    ((process_topic_files (some name) topic_id [n1, n2] existingJob extractFile
        (.ok capi tk) fuel).2).getLast? =
      some { existingJob.getD newJob with
          synthesized_content := capi
          source_filenames := [n2.original_filename]
          chunk_count := chunks.length
          token_count := tk
          processing_status := "completed".data
          error_message := none } := by
  have ht2' : t2 ≠ [] := by
    intro hnil
    rw [hnil] at ht2
    exact ht2 rfl
  have ht2e : t2.isEmpty = false := by
    cases t2 with
    | nil => exact absurd rfl ht2'
    | cons _ _ => rfl
  have hce : (clean_text t2).isEmpty = false := by
    cases hcase : clean_text t2 with
    | nil => exact absurd hcase ht2
    | cons _ _ => rfl
  have hchunksne : chunks.isEmpty = false := by
    have hne : ("Source: ".data ++ n2.original_filename ++ "\n\n".data ++ clean_text t2) ≠ [] := by
      simp
    have := chunk_text_some_ne_nil _ 8000 200 fuel chunks hne hchunk
    cases chunks with
    | nil => exact absurd rfl this
    | cons _ _ => rfl
  have hextract : extract_texts_from_notes extractFile [n1, n2] =
      ([clean_text t2], [n2.original_filename]) := by
    rw [extract_texts_skip extractFile n1 [n2] h1]
    simp only [extract_texts_from_notes, h2]
    simp [optTruthy, ht2e, hce, extract_texts_from_notes]
  simp only [process_topic_files, List.isEmpty_cons, Bool.false_eq_true, if_false,
    hextract, List.zipWith_cons_cons, List.zipWith_nil_right, joinSep, hchunk,
    synthesize_text_with_llm, hchunksne, optTruthy, Bool.not_false, if_true]
  exact ⟨trivial, by rw [List.getLast?_concat]⟩

/-- Witness for `process_partial_extraction_completes`, covering both
skip causes of the first file: `"a.pdf"` failing extraction with
`"boom"`, and `"a.pdf"` extracting the whitespace-only `"   "` whose
cleaned text is empty; in each case `"b.txt"` extracts `"hello"` and
the API returns `"synth"` with 42 tokens. -/
theorem process_partial_extraction_completes_witness :
    ((process_topic_files (some "T".data) 1
        [⟨"u1".data, "a.pdf".data⟩, ⟨"u2".data, "b.txt".data⟩] none
        (fun n => if n.file_url = "u1".data then (none, some "boom".data)
          else (some "hello".data, none))
        (.ok (some "synth".data) 42) 0).1 =
      some ⟨"success".data, "Meta document created successfully".data⟩ ∧
    ((process_topic_files (some "T".data) 1
        [⟨"u1".data, "a.pdf".data⟩, ⟨"u2".data, "b.txt".data⟩] none
        (fun n => if n.file_url = "u1".data then (none, some "boom".data)
          else (some "hello".data, none))
        (.ok (some "synth".data) 42) 0).2).getLast? =
      some { (none : Option Job).getD newJob with
          synthesized_content := some "synth".data
          source_filenames := ["b.txt".data]
          chunk_count := 1
          token_count := 42
          processing_status := "completed".data
          error_message := none }) ∧
    ((process_topic_files (some "T".data) 1
        [⟨"u1".data, "a.pdf".data⟩, ⟨"u2".data, "b.txt".data⟩] none
        (fun n => if n.file_url = "u1".data then (some "   ".data, none)
          else (some "hello".data, none))
        (.ok (some "synth".data) 42) 0).1 =
      some ⟨"success".data, "Meta document created successfully".data⟩ ∧
    ((process_topic_files (some "T".data) 1
        [⟨"u1".data, "a.pdf".data⟩, ⟨"u2".data, "b.txt".data⟩] none
        (fun n => if n.file_url = "u1".data then (some "   ".data, none)
          else (some "hello".data, none))
        (.ok (some "synth".data) 42) 0).2).getLast? =
      some { (none : Option Job).getD newJob with
          synthesized_content := some "synth".data
          source_filenames := ["b.txt".data]
          chunk_count := 1
          token_count := 42
          processing_status := "completed".data
          error_message := none }) := by
  refine ⟨?_, ?_⟩
  · exact process_partial_extraction_completes "T".data 1
      ⟨"u1".data, "a.pdf".data⟩ ⟨"u2".data, "b.txt".data⟩ none
      (fun n => if n.file_url = "u1".data then (none, some "boom".data)
        else (some "hello".data, none))
      (some "synth".data) 42 0 ["Source: b.txt\n\nhello".data] "hello".data
      (Or.inl (by decide)) (by decide) (by decide) (by decide)
  · exact process_partial_extraction_completes "T".data 1
      ⟨"u1".data, "a.pdf".data⟩ ⟨"u2".data, "b.txt".data⟩ none
      (fun n => if n.file_url = "u1".data then (some "   ".data, none)
        else (some "hello".data, none))
      (some "synth".data) 42 0 ["Source: b.txt\n\nhello".data] "hello".data
      (Or.inr (fun t1 ht => by
        simp at ht
        subst ht
        decide)) (by decide) (by decide) (by decide)

/-- A job committed as `failed` with a non-null error message satisfies
the record invariant, provided its synthesized content was empty. -/
theorem jobInvB_failed (j0 : Job) (msg : Str) (h : contentNonempty j0 = false) :
    jobInvB { j0 with
      processing_status := "failed".data
      error_message := some msg } = true := by
  have h1 : contentNonempty { j0 with
      processing_status := "failed".data
      error_message := some msg } = contentNonempty j0 := rfl
  unfold jobInvB
  rw [h1, h]
  rfl

/-- A job committed as `completed` with non-empty content and null error
satisfies the record invariant. -/
theorem jobInvB_completed (names : List Str) (cnt tks : Nat)
    (s : Str) (hs : s ≠ []) :
    jobInvB { synthesized_content := some s
              source_filenames := names
              chunk_count := cnt
              token_count := tks
              processing_status := "completed".data
              error_message := none } = true := by
  have hse : s.isEmpty = false := by
    cases s with
    | nil => exact absurd rfl hs
    | cons _ _ => rfl
  have h1 : contentNonempty { synthesized_content := some s
                              source_filenames := names
                              chunk_count := cnt
                              token_count := tks
                              processing_status := "completed".data
                              error_message := none } = !s.isEmpty := rfl
  unfold jobInvB
  rw [h1, hse]
  rfl

/-- Counterexample to C4 as stated: if the completion API succeeds but
returns the empty string as content, the final commit persists
`processing_status = 'completed'` together with empty
`synthesized_content`, breaking the "non-empty iff completed" half of
the invariant. -/
theorem process_completed_with_empty_content :
    ∃ j ∈ (process_topic_files (some "T".data) 1 [⟨"u".data, "a.txt".data⟩] none
      (fun _ => (some "hello".data, none)) (.ok (some []) 7) 0).2,
      jobInvB j = false := by decide

/-- C4 (amended): provided any reused in-flight job satisfies the
invariant in status `processing`, and the synthesizer's successful
content is a non-empty string, every `MetaDocument` state persisted by
`process_topic_files` — the creation commit and each later commit —
satisfies: synthesized content non-empty iff status `completed`, and
error message non-null iff status `failed`. -/
theorem process_persisted_states_invariant (topic : Option Str) (topic_id : Nat)
    (notes : List Note) (existingJob : Option Job)
    (extractFile : Note → Option Str × Option Str) (api : ApiOutcome) (fuel : Nat)
    (hejob : ∀ j0, existingJob = some j0 →
      jobInvB j0 = true ∧ j0.processing_status = "processing".data)
    (hapi : ∀ content tokens, api = ApiOutcome.ok content tokens →
      ∃ s, content = some s ∧ s ≠ []) :
    ∀ j ∈ (process_topic_files topic topic_id notes existingJob extractFile api fuel).2,
      jobInvB j = true := by
  intro j hj
  have hj0c : contentNonempty (existingJob.getD newJob) = false := by
    cases hE : existingJob with
    | none => rfl
    | some j0 =>
      obtain ⟨hinv, hstat⟩ := hejob j0 hE
      unfold jobInvB at hinv
      rw [Bool.and_eq_true] at hinv
      have h1 := hinv.1
      rw [hstat] at h1
      rw [show ("processing".data == "completed".data) = false from by decide] at h1
      simpa using h1
  have hj0inv : jobInvB (existingJob.getD newJob) = true := by
    cases hE : existingJob with
    | none => decide
    | some j0 => simpa using (hejob j0 hE).1
  have hp0 : ∀ x ∈ (if existingJob.isNone then [existingJob.getD newJob] else []),
      jobInvB x = true := by
    intro x hx
    cases hE : existingJob with
    | none =>
      rw [hE] at hx
      simp only [Option.isNone_none, if_true, List.mem_singleton] at hx
      rw [hx]
      rw [hE] at hj0inv
      exact hj0inv
    | some j0 =>
      rw [hE] at hx
      simp at hx
  cases topic with
  | none => simp [process_topic_files] at hj
  | some name =>
    by_cases hnotes : notes.isEmpty = true
    · simp [process_topic_files, hnotes] at hj
    · simp only [process_topic_files, hnotes, Bool.false_eq_true, if_false] at hj
      split at hj
      · -- no extractable text: creation state plus the failed state
        rcases List.mem_append.mp hj with h | h
        · exact hp0 j h
        · rw [List.mem_singleton] at h
          rw [h]
          exact jobInvB_failed _ _ hj0c
      · split at hj
        · -- chunk loop never returned: only the creation state persists
          exact hp0 j hj
        · rename_i text_chunks heqchunks
          split at hj
          · -- synthesizer error: creation state plus the failed state
            rename_i herr
            rcases List.mem_append.mp hj with h | h
            · exact hp0 j h
            · rw [List.mem_singleton] at h
              cases hs21 : (synthesize_text_with_llm api text_chunks).2.1 with
              | none => rw [hs21] at herr; exact absurd herr (by decide)
              | some msg =>
                rw [hs21] at h
                rw [h]
                exact jobInvB_failed _ _ hj0c
          · -- success: creation state plus the completed state
            rename_i herr
            rcases List.mem_append.mp hj with h | h
            · exact hp0 j h
            · rw [List.mem_singleton] at h
              by_cases hce : text_chunks.isEmpty = true
              · exfalso
                have : (synthesize_text_with_llm api text_chunks).2.1 =
                    some "No text chunks provided".data := by
                  unfold synthesize_text_with_llm
                  rw [if_pos hce]
                rw [this] at herr
                exact herr (by decide)
              · cases hA : api with
                | err m =>
                  exfalso
                  have : (synthesize_text_with_llm api text_chunks).2.1 =
                      some ("Error calling LLM: ".data ++ m) := by
                    unfold synthesize_text_with_llm
                    rw [if_neg hce, hA]
                  rw [this] at herr
                  apply herr
                  simp [optTruthy]
                | ok content tokens =>
                  obtain ⟨s, hcs, hsne⟩ := hapi content tokens hA
                  have hsy : synthesize_text_with_llm api text_chunks =
                      (some s, none, tokens) := by
                    unfold synthesize_text_with_llm
                    rw [if_neg hce, hA, hcs]
                  rw [hsy] at h
                  rw [h]
                  exact jobInvB_completed _ _ _ s hsne

/-- Witness for `process_persisted_states_invariant`: the final
`completed` record of a fresh successful run satisfies the invariant. -/
theorem process_persisted_states_invariant_witness :
    jobInvB { newJob with
      synthesized_content := some "out".data
      source_filenames := ["a.txt".data]
      chunk_count := 1
      token_count := 7
      processing_status := "completed".data
      error_message := none } = true := by
  exact process_persisted_states_invariant (some "T".data) 1
    [⟨"u".data, "a.txt".data⟩] none (fun _ => (some "hello".data, none))
    (.ok (some "out".data) 7) 0
    (fun j0 h => absurd h (by simp))
    (fun content tokens h => by cases h; exact ⟨"out".data, rfl, by decide⟩)
    _ (by decide)

/-- C7: `extract_text_from_file` always returns a `(text, error)` pair
(totality of the Lean function mirrors "never raises past this
boundary"): a missing path yields the `"File not found"` error with no
text, an existing path with an extension other than
`.pdf`/`.docx`/`.txt` yields the `"Unsupported file type"` error with no
text, and a PDF/DOCX/TXT format-library failure is returned as the
corresponding descriptive error string with no text. -/
theorem extract_text_result_contract (fs : FileSys) (p : Str) :
    (fs.exists? p = false →
      extract_text_from_file fs p = (none, some ("File not found: ".data ++ p))) ∧
    (fs.exists? p = true →
      splitextExtLower p ≠ ".pdf".data → splitextExtLower p ≠ ".docx".data →
      splitextExtLower p ≠ ".txt".data →
      extract_text_from_file fs p =
        (none, some ("Unsupported file type: ".data ++ splitextExtLower p))) ∧
    (∀ m, fs.exists? p = true → splitextExtLower p = ".pdf".data →
      fs.pdf p = .failure m →
      extract_text_from_file fs p = (none, some ("Error reading PDF: ".data ++ m))) ∧
    (∀ m, fs.exists? p = true → splitextExtLower p = ".docx".data →
      fs.docx p = .failure m →
      extract_text_from_file fs p = (none, some ("Error reading DOCX: ".data ++ m))) ∧
    (∀ m, fs.exists? p = true → splitextExtLower p = ".txt".data →
      fs.txtUtf8 p = .err m →
      extract_text_from_file fs p = (none, some ("Error reading TXT file: ".data ++ m))) := by
  refine ⟨?_, ?_, ?_, ?_, ?_⟩
  · intro h
    unfold extract_text_from_file
    rw [if_pos h]
  · intro h hp hd ht
    unfold extract_text_from_file
    rw [if_neg (by rw [h]; decide), if_neg hp, if_neg hd, if_neg ht]
  · intro m h hext hpdf
    unfold extract_text_from_file
    rw [if_neg (by rw [h]; decide), if_pos hext]
    unfold extract_text_from_pdf
    rw [hpdf]
  · intro m h hext hdocx
    unfold extract_text_from_file
    rw [if_neg (by rw [h]; decide),
      if_neg (by rw [hext]; decide), if_pos hext]
    unfold extract_text_from_docx
    rw [hdocx]
  · intro m h hext htxt
    unfold extract_text_from_file
    rw [if_neg (by rw [h]; decide),
      if_neg (by rw [hext]; decide), if_neg (by rw [hext]; decide), if_pos hext]
    unfold extract_text_from_txt
    rw [htxt]

/-- Witness for `extract_text_result_contract`: a missing `.txt` file,
an unsupported `.zip` file, and a PDF whose library raises `"boom"`. -/
theorem extract_text_result_contract_witness :
    extract_text_from_file
      ⟨fun _ => false, fun _ => .ok [], fun _ => .ok [], fun _ => .ok []⟩ "a.txt".data =
      (none, some ("File not found: ".data ++ "a.txt".data)) ∧
    extract_text_from_file
      ⟨fun _ => true, fun _ => .ok [], fun _ => .ok [], fun _ => .ok []⟩ "a.zip".data =
      (none, some ("Unsupported file type: ".data ++ splitextExtLower "a.zip".data)) ∧
    extract_text_from_file
      ⟨fun _ => true, fun _ => .failure "boom".data, fun _ => .ok [], fun _ => .ok []⟩
      "n.pdf".data = (none, some ("Error reading PDF: ".data ++ "boom".data)) := by
  refine ⟨?_, ?_, ?_⟩
  · exact (extract_text_result_contract _ _).1 rfl
  · exact (extract_text_result_contract _ _).2.1 rfl (by decide) (by decide) (by decide)
  · exact (extract_text_result_contract _ _).2.2.1 "boom".data rfl (by decide) rfl

/-- The head of a `dropWhile` result fails the predicate. -/
theorem dropWhile_head?_not {α : Type} (p : α → Bool) (l : List α) (x : α)
    (h : (l.dropWhile p).head? = some x) : p x = false := by
  induction l with
  | nil => simp at h
  | cons a t ih =>
    rw [List.dropWhile_cons] at h
    by_cases hp : p a = true
    · rw [if_pos hp] at h
      exact ih h
    · rw [if_neg hp] at h
      rw [Option.some.inj h] at hp
      exact Bool.not_eq_true _ ▸ hp

/-- A list whose head fails the predicate is untouched by `dropWhile`. -/
theorem dropWhile_eq_self_of_head {α : Type} (p : α → Bool) (l : List α)
    (h : ∀ x, l.head? = some x → p x = false) : l.dropWhile p = l := by
  cases l with
  | nil => rfl
  | cons a t =>
    rw [List.dropWhile_cons, if_neg]
    rw [h a rfl]
    exact Bool.false_ne_true

/-- Dropping a matching run twice drops it once: `dropWhile` is idempotent. -/
theorem dropWhile_idem {α : Type} (p : α → Bool) (l : List α) :
    (l.dropWhile p).dropWhile p = l.dropWhile p :=
  dropWhile_eq_self_of_head p _ (dropWhile_head?_not p l)

/-- Members of a `dropWhile` result are members of the original list. -/
theorem mem_of_mem_dropWhile {α : Type} (p : α → Bool) (l : List α) (x : α)
    (h : x ∈ l.dropWhile p) : x ∈ l := by
  induction l with
  | nil => simp at h
  | cons a t ih =>
    rw [List.dropWhile_cons] at h
    by_cases hp : p a = true
    · rw [if_pos hp] at h
      exact List.mem_cons_of_mem a (ih h)
    · rwa [if_neg hp] at h

/-- A non-empty `dropWhile` result keeps the original last element. -/
theorem getLast?_dropWhile {α : Type} (p : α → Bool) (l : List α)
    (h : l.dropWhile p ≠ []) : (l.dropWhile p).getLast? = l.getLast? := by
  obtain ⟨t, ht⟩ := List.dropWhile_suffix (l := l) p
  conv_rhs => rw [← ht]
  rw [List.getLast?_append_of_ne_nil t h]

/-- Stripping twice strips once: `pyStrip` is idempotent. -/
theorem pyStrip_idem (l : Str) : pyStrip (pyStrip l) = pyStrip l := by
  have hA : (pyStrip l).dropWhile isPyWs = pyStrip l := by
    apply dropWhile_eq_self_of_head
    intro x hx
    unfold pyStrip at hx
    rw [List.head?_reverse] at hx
    have hne : (l.dropWhile isPyWs).reverse.dropWhile isPyWs ≠ [] := by
      intro h0
      rw [h0] at hx
      simp at hx
    rw [getLast?_dropWhile _ _ hne, List.getLast?_reverse] at hx
    exact dropWhile_head?_not _ _ _ hx
  show (((pyStrip l).dropWhile isPyWs).reverse.dropWhile isPyWs).reverse = pyStrip l
  rw [hA]
  have hrev : (pyStrip l).reverse = (l.dropWhile isPyWs).reverse.dropWhile isPyWs := by
    unfold pyStrip
    rw [List.reverse_reverse]
  rw [hrev, dropWhile_idem]
  rfl

/-- Members of a stripped string are members of the original. -/
theorem mem_of_mem_pyStrip (l : Str) (x : Char) (h : x ∈ pyStrip l) : x ∈ l := by
  unfold pyStrip at h
  rw [List.mem_reverse] at h
  have h2 := mem_of_mem_dropWhile _ _ _ h
  rw [List.mem_reverse] at h2
  exact mem_of_mem_dropWhile _ _ _ h2

/-- Adjacent-pair relations survive `dropWhile`. -/
theorem chain'_dropWhile {α : Type} {R : α → α → Prop} (p : α → Bool) :
    ∀ l : List α, l.Chain' R → (l.dropWhile p).Chain' R := by
  intro l
  induction l with
  | nil => intro h; exact h
  | cons a t ih =>
    intro h
    rw [List.dropWhile_cons]
    by_cases hp : p a = true
    · rw [if_pos hp]
      exact ih h.tail
    · rwa [if_neg hp]

/-- Reversal preserves `NoAdj` (the relation is symmetric). -/
theorem noAdj_reverse (c : Char) (l : Str) (h : NoAdj c l) : NoAdj c l.reverse := by
  rw [NoAdj, List.chain'_reverse]
  exact h.imp (fun a b hab hba => hab ⟨hba.2, hba.1⟩)

/-- Stripping preserves `NoAdj`. -/
theorem noAdj_pyStrip (c : Char) (l : Str) (h : NoAdj c l) : NoAdj c (pyStrip l) :=
  noAdj_reverse _ _ (chain'_dropWhile _ _ (noAdj_reverse _ _ (chain'_dropWhile _ _ h)))

/-- A string avoiding `c` entirely has no two adjacent `c`s. -/
theorem noAdj_of_not_mem (c : Char) (l : Str) (h : c ∉ l) : NoAdj c l := by
  induction l with
  | nil => exact List.chain'_nil
  | cons a t ih =>
    rw [NoAdj, List.chain'_cons']
    constructor
    · intro y hy hcon
      apply h
      rw [← hcon.1]
      exact List.mem_cons_self a t
    · exact ih (fun hc => h (List.mem_cons_of_mem a hc))

/-- The output of `collapseSpaces` never has two adjacent spaces. -/
theorem collapseSpaces_noAdj : ∀ s : Str, NoAdj ' ' (collapseSpaces s) := by
  intro s
  induction s with
  | nil => exact List.chain'_nil
  | cons a rest ih =>
    by_cases ha : a = ' '
    · cases rest with
      | nil =>
        subst ha
        simp [collapseSpaces, NoAdj]
      | cons b r' =>
        by_cases hb : b = ' '
        · subst ha
          subst hb
          simpa [collapseSpaces] using ih
        · subst ha
          have heq : collapseSpaces (' ' :: b :: r') = ' ' :: collapseSpaces (b :: r') := by
            simp [collapseSpaces, hb]
          have hhead : (collapseSpaces (b :: r')).head? = some b := by
            cases r' with
            | nil => simp [collapseSpaces, hb]
            | cons c r2 => simp [collapseSpaces, hb]
          rw [heq, NoAdj, List.chain'_cons']
          constructor
          · intro y hy hcon
            rw [hhead] at hy
            apply hb
            rw [Option.mem_some_iff.mp hy]
            exact hcon.2
          · exact ih
    · have heq : collapseSpaces (a :: rest) = a :: collapseSpaces rest := by
        cases rest with
        | nil => simp [collapseSpaces, ha]
        | cons b r' => simp [collapseSpaces, ha]
      rw [heq, NoAdj, List.chain'_cons']
      exact ⟨fun y hy hcon => ha hcon.1, ih⟩

/-- A string with no two adjacent spaces is a fixed point of
`collapseSpaces`. -/
theorem collapseSpaces_eq_self : ∀ s : Str, NoAdj ' ' s → collapseSpaces s = s := by
  intro s
  induction s with
  | nil => intro _; rfl
  | cons a rest ih =>
    intro h
    have htail : NoAdj ' ' rest := List.Chain'.tail h
    cases rest with
    | nil =>
      by_cases ha : a = ' '
      · subst ha
        rfl
      · simp [collapseSpaces, ha]
    | cons b r' =>
      by_cases ha : a = ' '
      · by_cases hb : b = ' '
        · exfalso
          subst ha
          subst hb
          rw [NoAdj, List.chain'_cons'] at h
          exact h.1 ' ' rfl ⟨rfl, rfl⟩
        · subst ha
          have heq : collapseSpaces (' ' :: b :: r') = ' ' :: collapseSpaces (b :: r') := by
            simp [collapseSpaces, hb]
          rw [heq, ih htail]
      · have heq : collapseSpaces (a :: b :: r') = a :: collapseSpaces (b :: r') := by
          simp [collapseSpaces, ha]
        rw [heq, ih htail]

/-- A string with no two adjacent newlines is a fixed point of
`collapseNewlines`. -/
theorem collapseNewlines_eq_self : ∀ s : Str, NoAdj '\n' s → collapseNewlines s = s := by
  intro s
  induction s with
  | nil => intro _; rfl
  | cons a rest ih =>
    intro h
    have htail : NoAdj '\n' rest := List.Chain'.tail h
    by_cases ha : a = '\n'
    · cases rest with
      | nil =>
        subst ha
        rfl
      | cons b r2 =>
        cases r2 with
        | nil =>
          subst ha
          have heq : collapseNewlines ('\n' :: [b]) = '\n' :: collapseNewlines [b] := by
            simp [collapseNewlines]
          rw [heq, ih htail]
        | cons c r3 =>
          by_cases hbc : b = '\n' ∧ c = '\n'
          · exfalso
            subst ha
            rw [NoAdj, List.chain'_cons'] at h
            exact h.1 b rfl ⟨rfl, hbc.1⟩
          · subst ha
            have heq : collapseNewlines ('\n' :: b :: c :: r3) =
                '\n' :: collapseNewlines (b :: c :: r3) := by
              simp [collapseNewlines, hbc]
            rw [heq, ih htail]
    · have heq : collapseNewlines (a :: rest) = a :: collapseNewlines rest := by
        cases rest with
        | nil => simp [collapseNewlines, ha]
        | cons b r2 =>
          cases r2 with
          | nil => simp [collapseNewlines, ha]
          | cons c r3 => simp [collapseNewlines, ha]
      rw [heq, ih htail]

/-- Splitting never produces the empty list of lines. -/
theorem splitNl_ne_nil : ∀ t : Str, splitNl t ≠ [] := by
  intro t
  cases t with
  | nil => simp [splitNl]
  | cons c r =>
    by_cases hc : c = '\n'
    · simp [splitNl, hc]
    · simp only [splitNl, if_neg hc]
      cases hr : splitNl r with
      | nil => simp [consHead]
      | cons l ls => simp [consHead]

/-- Lines produced by `splitNl` contain no newline. -/
theorem splitNl_not_mem_nl : ∀ t : Str, ∀ m ∈ splitNl t, '\n' ∉ m := by
  intro t
  induction t with
  | nil =>
    intro m hm
    simp [splitNl] at hm
    rw [hm]
    simp
  | cons c r ih =>
    intro m hm
    by_cases hc : c = '\n'
    · simp only [splitNl, if_pos hc] at hm
      rcases List.mem_cons.mp hm with h1 | h1
      · rw [h1]; simp
      · exact ih m h1
    · simp only [splitNl, if_neg hc] at hm
      cases hr : splitNl r with
      | nil =>
        rw [hr] at hm
        simp only [consHead, List.mem_singleton] at hm
        rw [hm]
        simp [hc, Ne.symm hc]
      | cons l ls =>
        rw [hr] at hm
        simp only [consHead] at hm
        rcases List.mem_cons.mp hm with h1 | h1
        · rw [h1]
          intro hmem
          rcases List.mem_cons.mp hmem with h2 | h2
          · exact hc h2.symm
          · exact ih l (by rw [hr]; exact List.mem_cons_self _ _) h2
        · exact ih m (by rw [hr]; exact List.mem_cons_of_mem _ h1)

/-- The first line of a split starts with the first character of the
text. -/
theorem splitNl_head (t : Str) (hline : Str) (hs : List Str) (x : Char)
    (heq : splitNl t = hline :: hs) (hhead : hline.head? = some x) :
    t.head? = some x := by
  cases t with
  | nil =>
    simp only [splitNl] at heq
    obtain ⟨h1, -⟩ := List.cons.injEq .. ▸ heq
    rw [← h1] at hhead
    simp at hhead
  | cons c r =>
    by_cases hc : c = '\n'
    · simp only [splitNl, if_pos hc] at heq
      obtain ⟨h1, -⟩ := List.cons.injEq .. ▸ heq
      rw [← h1] at hhead
      simp at hhead
    · simp only [splitNl, if_neg hc] at heq
      cases hr : splitNl r with
      | nil =>
        rw [hr] at heq
        simp only [consHead] at heq
        obtain ⟨h1, -⟩ := List.cons.injEq .. ▸ heq
        rw [← h1] at hhead
        rw [show ([c] : Str).head? = some c from rfl] at hhead
        rw [← Option.some.inj hhead]
        rfl
      | cons l ls =>
        rw [hr] at heq
        simp only [consHead] at heq
        obtain ⟨h1, -⟩ := List.cons.injEq .. ▸ heq
        rw [← h1] at hhead
        rw [show (c :: l).head? = some c from rfl] at hhead
        rw [← Option.some.inj hhead]
        rfl

/-- Lines of a split inherit "no two adjacent `c`" from the text. -/
theorem mem_splitNl_noAdj (c₀ : Char) : ∀ t : Str, NoAdj c₀ t →
    ∀ m ∈ splitNl t, NoAdj c₀ m := by
  intro t
  induction t with
  | nil =>
    intro _ m hm
    simp [splitNl] at hm
    rw [hm]
    exact List.chain'_nil
  | cons c r ih =>
    intro h m hm
    have htail : NoAdj c₀ r := List.Chain'.tail h
    by_cases hc : c = '\n'
    · simp only [splitNl, if_pos hc] at hm
      rcases List.mem_cons.mp hm with h1 | h1
      · rw [h1]; exact List.chain'_nil
      · exact ih htail m h1
    · simp only [splitNl, if_neg hc] at hm
      cases hr : splitNl r with
      | nil =>
        rw [hr] at hm
        simp only [consHead, List.mem_singleton] at hm
        rw [hm]
        exact List.chain'_singleton c
      | cons l ls =>
        rw [hr] at hm
        simp only [consHead] at hm
        rcases List.mem_cons.mp hm with h1 | h1
        · rw [h1, NoAdj, List.chain'_cons']
          constructor
          · intro y hy hcon
            have hry : r.head? = some y := splitNl_head r l ls y hr (Option.mem_def.mp hy)
            rw [NoAdj, List.chain'_cons'] at h
            exact h.1 y (Option.mem_def.mpr hry) hcon
          · exact ih htail l (by rw [hr]; exact List.mem_cons_self _ _)
        · exact ih htail m (by rw [hr]; exact List.mem_cons_of_mem _ h1)

/-- A newline-free text splits into the single line it is. -/
theorem splitNl_single : ∀ l : Str, '\n' ∉ l → splitNl l = [l] := by
  intro l
  induction l with
  | nil => intro _; rfl
  | cons c r ih =>
    intro h
    have hc : c ≠ '\n' := fun hceq => h (by rw [hceq]; exact List.mem_cons_self _ _)
    simp only [splitNl, if_neg hc]
    rw [ih (fun hm => h (List.mem_cons_of_mem c hm))]
    rfl

/-- Splitting a newline-free line followed by `'\n'` and a tail peels
off exactly that line. -/
theorem splitNl_append_cons : ∀ l : Str, '\n' ∉ l → ∀ t : Str,
    splitNl (l ++ '\n' :: t) = l :: splitNl t := by
  intro l
  induction l with
  | nil =>
    intro _ t
    simp [splitNl]
  | cons c r ih =>
    intro h t
    have hc : c ≠ '\n' := fun hceq => h (by rw [hceq]; exact List.mem_cons_self _ _)
    have h2 : '\n' ∉ r := fun hm => h (List.mem_cons_of_mem c hm)
    show splitNl (c :: (r ++ '\n' :: t)) = (c :: r) :: splitNl t
    simp only [splitNl, if_neg hc]
    rw [ih h2 t]
    rfl

/-- Splitting on newlines inverts joining newline-free lines. -/
theorem splitNl_joinSep : ∀ L : List Str, (∀ l ∈ L, '\n' ∉ l) → L ≠ [] →
    splitNl (joinSep ['\n'] L) = L := by
  intro L
  induction L with
  | nil => intro _ h; exact absurd rfl h
  | cons l L' ih =>
    intro hL _
    cases L' with
    | nil =>
      show splitNl (joinSep ['\n'] [l]) = [l]
      rw [show joinSep ['\n'] [l] = l from rfl]
      exact splitNl_single l (hL l (List.mem_cons_self _ _))
    | cons l2 L2 =>
      rw [show joinSep ['\n'] (l :: l2 :: L2) =
        l ++ ['\n'] ++ joinSep ['\n'] (l2 :: L2) from rfl]
      rw [List.append_assoc, List.singleton_append]
      rw [splitNl_append_cons l (hL l (List.mem_cons_self _ _)) _]
      rw [ih (fun x hx => hL x (List.mem_cons_of_mem _ hx)) (by simp)]

/-- The joined text starts with the first line's first character. -/
theorem joinSep_head (l : Str) (ls : List Str) (h : l ≠ []) :
    (joinSep ['\n'] (l :: ls)).head? = l.head? := by
  cases ls with
  | nil => rfl
  | cons l2 ls2 =>
    cases l with
    | nil => exact absurd rfl h
    | cons a t => rfl

/-- A `getLast? = some` witness is a member. -/
theorem mem_of_getLast?_eq (l : Str) (x : Char) (h : l.getLast? = some x) : x ∈ l := by
  obtain ⟨hne, hx⟩ := List.mem_getLast?_eq_getLast (l := l) (x := x) (Option.mem_def.mpr h)
  rw [hx]
  exact List.getLast_mem hne

/-- Joining non-empty newline-free lines with single newlines yields a
text with no two adjacent newlines. -/
theorem joinSep_noAdj_nl : ∀ L : List Str, (∀ l ∈ L, l ≠ [] ∧ '\n' ∉ l) →
    NoAdj '\n' (joinSep ['\n'] L) := by
  intro L
  induction L with
  | nil => intro _; exact List.chain'_nil
  | cons l L' ih =>
    intro hL
    obtain ⟨hlne, hlnm⟩ := hL l (List.mem_cons_self _ _)
    cases L' with
    | nil => exact noAdj_of_not_mem _ _ hlnm
    | cons l2 L2 =>
      rw [show joinSep ['\n'] (l :: l2 :: L2) =
        l ++ ['\n'] ++ joinSep ['\n'] (l2 :: L2) from rfl]
      rw [List.append_assoc, List.singleton_append, NoAdj, List.chain'_append]
      refine ⟨noAdj_of_not_mem _ _ hlnm, ?_, ?_⟩
      · rw [List.chain'_cons']
        constructor
        · intro y hy hcon
          have hl2 := hL l2 (List.mem_cons_of_mem _ (List.mem_cons_self _ _))
          rw [joinSep_head l2 L2 hl2.1] at hy
          apply hl2.2
          rw [← hcon.2]
          exact List.mem_of_mem_head? hy
        · exact ih (fun x hx => hL x (List.mem_cons_of_mem _ hx))
      · intro x hx y hy hcon
        apply hlnm
        rw [← hcon.1]
        exact mem_of_getLast?_eq l x (Option.mem_def.mp hx)

/-- Joining lines that each have no two adjacent spaces preserves that
property (the separators are newlines, not spaces). -/
theorem joinSep_noAdj_sp : ∀ L : List Str, (∀ l ∈ L, NoAdj ' ' l) →
    NoAdj ' ' (joinSep ['\n'] L) := by
  intro L
  induction L with
  | nil => intro _; exact List.chain'_nil
  | cons l L' ih =>
    intro hL
    cases L' with
    | nil => exact hL l (List.mem_cons_self _ _)
    | cons l2 L2 =>
      rw [show joinSep ['\n'] (l :: l2 :: L2) =
        l ++ ['\n'] ++ joinSep ['\n'] (l2 :: L2) from rfl]
      rw [List.append_assoc, List.singleton_append, NoAdj, List.chain'_append]
      refine ⟨hL l (List.mem_cons_self _ _), ?_, ?_⟩
      · rw [List.chain'_cons']
        refine ⟨?_, ih (fun x hx => hL x (List.mem_cons_of_mem _ hx))⟩
        intro y hy hcon
        exact absurd hcon.1 (by decide)
      · intro x hx y hy hcon
        simp only [List.head?_cons, Option.mem_def, Option.some.injEq] at hy
        rw [← hy] at hcon
        exact absurd hcon.2 (by decide)

/-- Mapping `pyStrip` over already-stripped lines is the identity. -/
theorem map_pyStrip_self : ∀ L : List Str, (∀ l ∈ L, pyStrip l = l) →
    L.map pyStrip = L := by
  intro L
  induction L with
  | nil => intro _; rfl
  | cons l L' ih =>
    intro h
    rw [List.map_cons, h l (List.mem_cons_self _ _),
      ih (fun x hx => h x (List.mem_cons_of_mem _ hx))]

/-- Filtering non-empty lines out of a list of non-empty lines is the
identity. -/
theorem filter_ne_nil_self : ∀ L : List Str, (∀ l ∈ L, l ≠ []) →
    L.filter (fun l => !l.isEmpty) = L := by
  intro L
  induction L with
  | nil => intro _; rfl
  | cons l L' ih =>
    intro h
    have hl : l.isEmpty = false := by
      cases hcase : l with
      | nil => exact absurd hcase (h l (List.mem_cons_self _ _))
      | cons _ _ => rfl
    simp [List.filter_cons, hl, ih (fun x hx => h x (List.mem_cons_of_mem _ hx))]

/-- Every line `clean_text` joins is non-empty, newline-free, already
stripped, and has no two adjacent spaces. -/
theorem cleanLines_props (s : Str) :
    ∀ l ∈ cleanLines s, l ≠ [] ∧ '\n' ∉ l ∧ pyStrip l = l ∧ NoAdj ' ' l := by
  intro l hl
  unfold cleanLines at hl
  rw [List.mem_filter] at hl
  obtain ⟨hmap, hfilt⟩ := hl
  rw [List.mem_map] at hmap
  obtain ⟨m, hm, hlm⟩ := hmap
  have hne : l ≠ [] := by
    intro h0
    rw [h0] at hfilt
    simp at hfilt
  refine ⟨hne, ?_, ?_, ?_⟩
  · intro hmem
    rw [← hlm] at hmem
    exact splitNl_not_mem_nl _ m hm (mem_of_mem_pyStrip m '\n' hmem)
  · rw [← hlm]
    exact pyStrip_idem m
  · rw [← hlm]
    exact noAdj_pyStrip ' ' m (mem_splitNl_noAdj ' ' _ (collapseSpaces_noAdj _) m hm)

/-- For non-empty input, `clean_text` is the newline-join of its
cleaned lines. -/
theorem clean_text_eq_joinSep (s : Str) (h : s ≠ []) :
    clean_text s = joinSep ['\n'] (cleanLines s) := by
  have hie : s.isEmpty = false := by
    cases s with
    | nil => exact absurd rfl h
    | cons _ _ => rfl
  unfold clean_text cleanLines
  rw [hie]
  simp only [Bool.false_eq_true, if_false]

/-- C9: `clean_text` is idempotent. -/
theorem clean_text_idempotent : ∀ s : Str, clean_text (clean_text s) = clean_text s := by
  intro s
  by_cases hs : s = []
  · rw [hs]
    rfl
  · rw [clean_text_eq_joinSep s hs]
    have props := cleanLines_props s
    cases hL : cleanLines s with
    | nil => rfl
    | cons l L' =>
      rw [hL] at props
      have hlne : l ≠ [] := (props l (List.mem_cons_self _ _)).1
      have hrne : joinSep ['\n'] (l :: L') ≠ [] := by
        cases L' with
        | nil => exact hlne
        | cons l2 L2 =>
          cases l with
          | nil => exact absurd rfl hlne
          | cons a t => simp [joinSep]
      rw [clean_text_eq_joinSep _ hrne]
      have h1 : collapseNewlines (joinSep ['\n'] (l :: L')) = joinSep ['\n'] (l :: L') :=
        collapseNewlines_eq_self _
          (joinSep_noAdj_nl _ (fun x hx => ⟨(props x hx).1, (props x hx).2.1⟩))
      have h2 : collapseSpaces (joinSep ['\n'] (l :: L')) = joinSep ['\n'] (l :: L') :=
        collapseSpaces_eq_self _
          (joinSep_noAdj_sp _ (fun x hx => (props x hx).2.2.2))
      have h3 : splitNl (joinSep ['\n'] (l :: L')) = l :: L' :=
        splitNl_joinSep _ (fun x hx => (props x hx).2.1) (by simp)
      have h4 : cleanLines (joinSep ['\n'] (l :: L')) = l :: L' := by
        unfold cleanLines
        rw [h1, h2, h3]
        rw [map_pyStrip_self _ (fun x hx => (props x hx).2.2.1)]
        exact filter_ne_nil_self _ (fun x hx => (props x hx).1)
      rw [h4]
